import Mathlib

/-!
Shallow embedding of the Merkle-tree core of `src/merkletrees.js`.

Digests are modelled as `String` (the source works on hex-digest strings and
concatenates them with `+` before rehashing).  The hash function
(`hashData`, source line 3) is an external collaborator (spec section 6), so the
whole development is parametric in `hash : String → String`; concrete
witnesses instantiate it with the computable injective function `demoHash`.
-/

namespace MerkleTrees

/-- A proof step as pushed by `generateMerkleProof` (source line 33):
an object `{hash, position}` where `position` is the string
literal computed by `pairIndex > index ? 'right' : 'left'`. -/
structure ProofStep where
  hash : String
  position : String
  deriving DecidableEq, Repr

section Core

variable (hash : String → String)

/-- One level-folding pass: consume the level in consecutive pairs
`(2i, 2i+1)`, self-pairing a lone final element.  This is the transform the
source implements twice with identical behaviour: the `for` loop of
`buildMerkleTree` (lines 10-15: `left = a[i]`, `right = i+1 < len ? a[i+1] : left`,
push `hashData(left + right)`) and the `reduce` inside
`generateMerkleProof` (lines 37-44, the same computation). -/
def nextLevel : List String → List String
  | [] => []
  | [x] => [hash (x ++ x)]
  | x :: y :: rest => hash (x ++ y) :: nextLevel rest

/-- One folding pass maps a level of length `n` to one of length
`⌈n/2⌉ = (n+1)/2`. -/
theorem nextLevel_length : ∀ (l : List String), (nextLevel hash l).length = (l.length + 1) / 2
  | [] => by simp [nextLevel]
  | [_] => by simp [nextLevel]
  | _ :: _ :: rest => by
    simp only [nextLevel, List.length_cons, nextLevel_length rest]
    omega

/-- `buildMerkleTree` (source lines 7-18).  Base case (line 8): a length-1
input returns `{tree: hashedEmails, root: hashedEmails[0]}`; otherwise it
recurses on the next level (line 17).  On the empty list the source recurses
forever with the same empty list (`nextLevel [] = []`, so no progress; at
runtime the call stack overflows); that divergent branch — the only input on
which the source does not return — is modelled as `none`, as certified
against the fuel-indexed model `buildMerkleTreeFuel` below. -/
def buildMerkleTree (l : List String) : Option (List String × String) :=
  if l.length = 1 then some (l, l.getD 0 "")
  else if l.length = 0 then none
  else buildMerkleTree (nextLevel hash l)
  termination_by l.length
  decreasing_by
    have h := nextLevel_length hash l
    omega

/-- Fuel-indexed model of `buildMerkleTree`, the fuel counting recursive
calls (the source's call stack): `none` means the computation did not finish
within `fuel` nested calls.  An input on which the result is `none` for
every fuel is one on which the source diverges. -/
def buildMerkleTreeFuel : Nat → List String → Option (List String × String)
  | 0, _ => none
  | fuel + 1, l =>
    if l.length = 1 then some (l, l.getD 0 "")
    else buildMerkleTreeFuel fuel (nextLevel hash l)

/-- Sibling-index computation of `generateMerkleProof` (source lines 29-32):
`pairIndex = index even ? index+1 : index-1`, clamped back to `index`
itself when it falls outside the level. -/
def pairIndexOf (index len : Nat) : Nat :=
  let p := if index % 2 = 0 then index + 1 else index - 1
  if len ≤ p then index else p

/-- The proof step recorded at one level (source line 33):
`{hash: hashedEmails[pairIndex], position: pairIndex > index ? 'right' : 'left'}`. -/
def genStep (index : Nat) (level : List String) : ProofStep :=
  ⟨level.getD (pairIndexOf index level.length) "",
   if index < pairIndexOf index level.length then "right" else "left"⟩

/-- The `while (hashedEmails.length > 1)` loop of `generateMerkleProof`
(source lines 28-45): record a step, halve the index (line 36), fold the
level (lines 37-44), repeat until the level has length 1. -/
def genLoop (index : Nat) (level : List String) : List ProofStep :=
  if level.length ≤ 1 then []
  else genStep index level :: genLoop (index / 2) (nextLevel hash level)
  termination_by level.length
  decreasing_by
    have h := nextLevel_length hash level
    omega

/-- JavaScript `Array.prototype.indexOf` on a list of strings: index of the
first occurrence, `none` for the source's `-1` sentinel (source line 22). -/
def indexOfAux (target : String) : List String → Option Nat
  | [] => none
  | x :: xs => if x = target then some 0 else (indexOfAux target xs).map (· + 1)

/-- `generateMerkleProof` (source lines 20-48): hash the email, locate the
first index of that digest (null when absent, lines 23-25), then run the
level loop. -/
def generateMerkleProof (email : String) (hashedEmails : List String) :
    Option (List ProofStep) :=
  match indexOfAux (hash email) hashedEmails with
  | none => none
  | some index => some (genLoop hash index hashedEmails)

/-- The replay loop of `verifyEmail` (source lines 52-55), started from an
arbitrary current digest: for each step, `pair = position === 'left' ?
hash + computed : computed + hash`, then rehash. -/
def verifyFold (computed : String) (proof : List ProofStep) : String :=
  proof.foldl (fun c s => hash (if s.position = "left" then s.hash ++ c else c ++ s.hash)) computed

/-- The spec's section 4.3 verifier contract, taking the item digest
directly: replay the proof from `d` and compare with `root` byte-exactly
(source line 57). -/
def verifyDigest (d : String) (proof : List ProofStep) (root : String) : Bool :=
  verifyFold hash d proof == root

/-- `verifyEmail` (source lines 50-58): hash the email (line 51), replay the
proof, compare with the root. -/
def verifyEmail (email : String) (proof : List ProofStep) (root : String) : Bool :=
  verifyDigest hash (hash email) proof root

end Core

section Lemmas

variable (hash : String → String)

/-- Unfolding equation for `buildMerkleTree`. -/
theorem buildMerkleTree_eq (l : List String) :
    buildMerkleTree hash l =
      if l.length = 1 then some (l, l.getD 0 "")
      else if l.length = 0 then none
      else buildMerkleTree hash (nextLevel hash l) := by
  rw [buildMerkleTree]

/-- Unfolding equation for `genLoop`. -/
theorem genLoop_eq (index : Nat) (level : List String) :
    genLoop hash index level =
      if level.length ≤ 1 then []
      else genStep index level :: genLoop hash (index / 2) (nextLevel hash level) := by
  rw [genLoop]

/-- A successful `indexOf` hit is in bounds, holds the target, and is the
first occurrence. -/
theorem indexOfAux_some (t : String) :
    ∀ (l : List String) (i : Nat), indexOfAux t l = some i →
      i < l.length ∧ l.getD i "" = t ∧ ∀ j, j < i → l.getD j "" ≠ t := by
  intro l
  induction l with
  | nil => intro i h; simp [indexOfAux] at h
  | cons x xs ih =>
    intro i h
    by_cases hx : x = t
    · simp only [indexOfAux, if_pos hx, Option.some.injEq] at h
      subst h
      exact ⟨by simp, by simpa using hx, fun j hj => absurd hj (by omega)⟩
    · rw [indexOfAux, if_neg hx] at h
      cases hrec : indexOfAux t xs with
      | none => rw [hrec] at h; simp at h
      | some i0 =>
        rw [hrec] at h
        simp only [Option.map_some', Option.some.injEq] at h
        subst h
        obtain ⟨h1, h2, h3⟩ := ih i0 hrec
        refine ⟨by simpa using Nat.succ_lt_succ h1, by simpa using h2, ?_⟩
        intro j hj
        cases j with
        | zero => simpa using hx
        | succ j0 => simpa using h3 j0 (by omega)

/-- A present target is found by `indexOf`. -/
theorem indexOfAux_of_mem (t : String) :
    ∀ (l : List String), t ∈ l → ∃ i, indexOfAux t l = some i := by
  intro l
  induction l with
  | nil => intro h; simp at h
  | cons x xs ih =>
    intro h
    by_cases hx : x = t
    · exact ⟨0, by simp [indexOfAux, hx]⟩
    · have hmem : t ∈ xs := by
        rcases List.mem_cons.mp h with h0 | h0
        · exact absurd h0.symm hx
        · exact h0
      obtain ⟨i, hi⟩ := ih hmem
      exact ⟨i + 1, by simp [indexOfAux, if_neg hx, hi]⟩

/-- An absent target yields the `-1` sentinel (`none`). -/
theorem indexOfAux_of_not_mem (t : String) :
    ∀ (l : List String), t ∉ l → indexOfAux t l = none := by
  intro l
  induction l with
  | nil => intro; simp [indexOfAux]
  | cons x xs ih =>
    intro h
    have hx : x ≠ t := fun e => h (by simp [e])
    have hxs : t ∉ xs := fun m => h (List.mem_cons_of_mem _ m)
    simp [indexOfAux, if_neg hx, ih hxs]

/-- Entry `k` of the folded level, full-pair case: it hashes the
concatenation of entries `2k` and `2k+1` of the level below. -/
theorem nextLevel_getD_pair :
    ∀ (l : List String) (k : Nat), 2 * k + 1 < l.length →
      (nextLevel hash l).getD k "" = hash (l.getD (2 * k) "" ++ l.getD (2 * k + 1) "")
  | [], k, h => by simp at h
  | [_], k, h => by simp at h
  | _ :: _ :: _, 0, _ => by simp [nextLevel]
  | x :: y :: rest, k + 1, h => by
    have ih := nextLevel_getD_pair rest k (by simp at h; omega)
    have e1 : 2 * (k + 1) = 2 * k + 1 + 1 := by omega
    have e2 : 2 * (k + 1) + 1 = 2 * k + 1 + 1 + 1 := by omega
    simp only [nextLevel, e1, e2, List.getD_cons_succ]
    exact ih

/-- Entry `k` of the folded level, lone-tail case: on an odd-length level
the last entry (index `2k`) is concatenated with itself. -/
theorem nextLevel_getD_last :
    ∀ (l : List String) (k : Nat), l.length = 2 * k + 1 →
      (nextLevel hash l).getD k "" = hash (l.getD (2 * k) "" ++ l.getD (2 * k) "")
  | [], k, h => by simp at h
  | [_], 0, _ => by simp [nextLevel]
  | [_], _ + 1, h => by simp at h
  | _ :: _ :: _, 0, h => by simp at h
  | x :: y :: rest, k + 1, h => by
    have ih := nextLevel_getD_last rest k (by simp at h; omega)
    have e1 : 2 * (k + 1) = 2 * k + 1 + 1 := by omega
    simp only [nextLevel, e1, List.getD_cons_succ]
    exact ih

/-- The recorded step replays to the parent: feeding the node's own digest
through the verifier's combination (sibling on the recorded side) gives
exactly entry `index / 2` of the folded level. -/
theorem genStep_correct (level : List String) (index : Nat)
    (h1 : index < level.length) (h2 : 1 < level.length) :
    hash (if (genStep index level).position = "left"
          then (genStep index level).hash ++ level.getD index ""
          else level.getD index "" ++ (genStep index level).hash)
      = (nextLevel hash level).getD (index / 2) "" := by
  by_cases hpar : index % 2 = 0
  · obtain ⟨k, hk⟩ : ∃ k, index = 2 * k := ⟨index / 2, by omega⟩
    subst hk
    have hdiv : 2 * k / 2 = k := by omega
    by_cases hlast : 2 * k + 1 < level.length
    · have hp : pairIndexOf (2 * k) level.length = 2 * k + 1 := by
        unfold pairIndexOf
        simp only [if_pos hpar]
        rw [if_neg (by omega)]
      have hpos : (genStep (2 * k) level).position = "right" := by
        simp [genStep, hp]
      have hsib : (genStep (2 * k) level).hash = level.getD (2 * k + 1) "" := by
        simp [genStep, hp]
      rw [hpos, hsib, if_neg (by decide : ¬("right" : String) = "left"), hdiv]
      exact (nextLevel_getD_pair hash level k hlast).symm
    · have hlen : level.length = 2 * k + 1 := by omega
      have hp : pairIndexOf (2 * k) level.length = 2 * k := by
        unfold pairIndexOf
        simp only [if_pos hpar]
        rw [if_pos (by omega)]
      have hpos : (genStep (2 * k) level).position = "left" := by
        simp [genStep, hp]
      have hsib : (genStep (2 * k) level).hash = level.getD (2 * k) "" := by
        simp [genStep, hp]
      rw [hpos, hsib, if_pos rfl, hdiv]
      exact (nextLevel_getD_last hash level k hlen).symm
  · obtain ⟨k, hk⟩ : ∃ k, index = 2 * k + 1 := ⟨index / 2, by omega⟩
    subst hk
    have hdiv : (2 * k + 1) / 2 = k := by omega
    have hp : pairIndexOf (2 * k + 1) level.length = 2 * k := by
      unfold pairIndexOf
      rw [if_neg hpar]
      have e : 2 * k + 1 - 1 = 2 * k := by omega
      rw [e, if_neg (by omega)]
    have hpos : (genStep (2 * k + 1) level).position = "left" := by
      simp [genStep, hp]
    have hsib : (genStep (2 * k + 1) level).hash = level.getD (2 * k) "" := by
      simp [genStep, hp]
    rw [hpos, hsib, if_pos rfl, hdiv]
    exact (nextLevel_getD_pair hash level k h1).symm

/-- Replay invariant: starting the verifier's fold from the digest at the
target's index and consuming the steps the generator records reproduces the
root the builder computes (stated with an explicit bound `n` on the level
length to drive the induction). -/
theorem genLoop_replays :
    ∀ (n : Nat) (level : List String), level.length ≤ n → 1 ≤ level.length →
      ∀ index, index < level.length →
        ∃ t r, buildMerkleTree hash level = some (t, r) ∧
          verifyFold hash (level.getD index "") (genLoop hash index level) = r := by
  intro n
  induction n with
  | zero => intro level h h1 _ _; omega
  | succ n ih =>
    intro level hlen h1 index hidx
    by_cases hone : level.length = 1
    · have hidx0 : index = 0 := by omega
      subst hidx0
      refine ⟨level, level.getD 0 "", ?_, ?_⟩
      · rw [buildMerkleTree_eq, if_pos hone]
      · rw [genLoop_eq, if_pos (by omega)]
        rfl
    · have h2 : 1 < level.length := by omega
      have hnl := nextLevel_length hash level
      have hstep := genStep_correct hash level index hidx h2
      obtain ⟨t, r, hbr, hvr⟩ :=
        ih (nextLevel hash level) (by omega) (by omega) (index / 2) (by omega)
      refine ⟨t, r, ?_, ?_⟩
      · rw [buildMerkleTree_eq, if_neg hone, if_neg (by omega)]
        exact hbr
      · rw [genLoop_eq, if_neg (by omega)]
        simp only [verifyFold, List.foldl_cons]
        rw [hstep]
        simpa only [verifyFold] using hvr

/-- The generator records exactly `⌈log₂ n⌉` steps on a level of length
`n ≥ 1` (again with an explicit induction bound). -/
theorem genLoop_length :
    ∀ (n : Nat) (level : List String), level.length ≤ n → 1 ≤ level.length →
      ∀ index, (genLoop hash index level).length = Nat.clog 2 level.length := by
  intro n
  induction n with
  | zero => intro level h h1 _; omega
  | succ n ih =>
    intro level hlen h1 index
    by_cases hone : level.length = 1
    · rw [genLoop_eq, if_pos (by omega), hone]
      simp
    · have h2 : 2 ≤ level.length := by omega
      have hnl := nextLevel_length hash level
      have hclog := Nat.clog_of_two_le (by norm_num : (1 : ℕ) < 2) h2
      have e : (level.length + 2 - 1) / 2 = (level.length + 1) / 2 := by omega
      rw [e] at hclog
      rw [genLoop_eq, if_neg (by omega), List.length_cons,
        ih (nextLevel hash level) (by omega) (by omega) (index / 2), hnl, hclog]

/-- For every amount of fuel, building from the empty level fails to finish:
each recursive call passes the empty level on unchanged
(`nextLevel [] = []`), so the source's recursion never reaches its base
case. -/
theorem buildMerkleTreeFuel_nil : ∀ (fuel : Nat), buildMerkleTreeFuel hash fuel [] = none
  | 0 => rfl
  | fuel + 1 => by
    simp only [buildMerkleTreeFuel]
    rw [if_neg (by simp), show nextLevel hash [] = [] from rfl]
    exact buildMerkleTreeFuel_nil fuel

/-- On a non-empty level the builder terminates, and the `tree` field it
returns is the singleton level `[root]`. -/
theorem buildMerkleTree_some :
    ∀ (n : Nat) (l : List String), l.length ≤ n → 1 ≤ l.length →
      ∃ r, buildMerkleTree hash l = some ([r], r) := by
  intro n
  induction n with
  | zero => intro l h h1; omega
  | succ n ih =>
    intro l hlen h1
    by_cases hone : l.length = 1
    · match l, hone with
      | [x], _ =>
        exact ⟨x, by rw [buildMerkleTree_eq]; rfl⟩
    · have hnl := nextLevel_length hash l
      obtain ⟨r, hr⟩ := ih (nextLevel hash l) (by omega) (by omega)
      refine ⟨r, ?_⟩
      rw [buildMerkleTree_eq, if_neg hone, if_neg (by omega)]
      exact hr

end Lemmas

/-- Concrete injective hash stand-in used by witnesses: wraps the input in
parentheses, so distinct inputs give distinct digests and every digest is
computable by `decide`. -/
def demoHash (s : String) : String := "(" ++ s ++ ")"


section Claims

/-- C1: Round-trip — for every non-empty finite sequence `L` of distinct
byte strings and every item `e` in `L`, the generated proof verifies:
`generateProof` on `hash e` over `map hash L` returns a proof, `build`
returns a root, and `verify` of `e` with that proof against that root
returns `true`. -/
theorem round_trip_verifies (hash : String → String) (L : List String) (e : String)
    (hne : L ≠ []) (hnd : L.Nodup) (he : e ∈ L) :
    ∃ proof t r,
      generateMerkleProof hash e (L.map hash) = some proof ∧
      buildMerkleTree hash (L.map hash) = some (t, r) ∧
      verifyEmail hash e proof r = true := by
  have hmem : hash e ∈ L.map hash := List.mem_map_of_mem hash he
  obtain ⟨i, hi⟩ := indexOfAux_of_mem (hash e) (L.map hash) hmem
  obtain ⟨hlt, hget, -⟩ := indexOfAux_some (hash e) (L.map hash) i hi
  have h1 : 1 ≤ (L.map hash).length := by
    have := List.length_pos.mpr hne
    simp only [List.length_map]
    omega
  obtain ⟨t, r, hb, hv⟩ :=
    genLoop_replays hash (L.map hash).length (L.map hash) le_rfl h1 i hlt
  refine ⟨genLoop hash i (L.map hash), t, r, ?_, hb, ?_⟩
  · unfold generateMerkleProof
    rw [hi]
  · unfold verifyEmail verifyDigest
    rw [← hget, hv]
    simp

theorem round_trip_verifies_witness :
    (["a", "b", "c"] : List String) ≠ [] ∧
    (["a", "b", "c"] : List String).Nodup ∧
    "a" ∈ (["a", "b", "c"] : List String) ∧
    ∃ proof t r,
      generateMerkleProof demoHash "a" ((["a", "b", "c"] : List String).map demoHash) = some proof ∧
      buildMerkleTree demoHash ((["a", "b", "c"] : List String).map demoHash) = some (t, r) ∧
      verifyEmail demoHash "a" proof r = true :=
  ⟨by decide, by decide, by decide,
    round_trip_verifies demoHash ["a", "b", "c"] "a" (by decide) (by decide) (by decide)⟩

/-- C2: on the empty leaf-digest sequence the builder never returns: for
every amount of call-stack fuel the recursion fails to reach its base case,
because the level transform maps the empty level to itself.  (The source has
no InvalidInput check; at runtime the unbounded recursion overflows the
stack.) -/
theorem build_empty_diverges (hash : String → String) :
    (∀ fuel, buildMerkleTreeFuel hash fuel [] = none) ∧ nextLevel hash [] = [] :=
  ⟨buildMerkleTreeFuel_nil hash, rfl⟩

/-- C3: odd-length duplication — for a 3-leaf sequence `[a, b, c]` level 1
is `[hash (a++b), hash (c++c)]` and the root is
`hash (hash (a++b) ++ hash (c++c))`; in general the lone final entry of an
odd-length level is hashed with itself (not carried up unhashed) and
contributes an entry to the next level (not dropped). -/
theorem odd_level_duplication (hash : String → String) (a b c : String)
    (l : List String) (hodd : l.length % 2 = 1) (h1 : 1 ≤ l.length) :
    nextLevel hash [a, b, c] = [hash (a ++ b), hash (c ++ c)] ∧
    buildMerkleTree hash [a, b, c] =
      some ([hash (hash (a ++ b) ++ hash (c ++ c))],
        hash (hash (a ++ b) ++ hash (c ++ c))) ∧
    (nextLevel hash l).getD (l.length / 2) "" =
      hash (l.getD (l.length - 1) "" ++ l.getD (l.length - 1) "") ∧
    (nextLevel hash l).length = (l.length + 1) / 2 := by
  refine ⟨by simp [nextLevel], ?_, ?_, nextLevel_length hash l⟩
  · rw [buildMerkleTree_eq, if_neg (by simp), if_neg (by simp),
      show nextLevel hash [a, b, c] = [hash (a ++ b), hash (c ++ c)] by simp [nextLevel],
      buildMerkleTree_eq, if_neg (by simp), if_neg (by simp),
      show nextLevel hash [hash (a ++ b), hash (c ++ c)] =
        [hash (hash (a ++ b) ++ hash (c ++ c))] by simp [nextLevel],
      buildMerkleTree_eq, if_pos (by simp)]
    rfl
  · obtain ⟨k, hk⟩ : ∃ k, l.length = 2 * k + 1 := ⟨l.length / 2, by omega⟩
    have e1 : l.length / 2 = k := by omega
    have e2 : l.length - 1 = 2 * k := by omega
    rw [e1, e2]
    exact nextLevel_getD_last hash l k hk

theorem odd_level_duplication_witness :
    (["u", "v", "w"] : List String).length % 2 = 1 ∧
    1 ≤ (["u", "v", "w"] : List String).length ∧
    (nextLevel demoHash ["x", "y", "z"] = [demoHash ("x" ++ "y"), demoHash ("z" ++ "z")] ∧
    buildMerkleTree demoHash ["x", "y", "z"] =
      some ([demoHash (demoHash ("x" ++ "y") ++ demoHash ("z" ++ "z"))],
        demoHash (demoHash ("x" ++ "y") ++ demoHash ("z" ++ "z"))) ∧
    (nextLevel demoHash ["u", "v", "w"]).getD ((["u", "v", "w"] : List String).length / 2) "" =
      demoHash ((["u", "v", "w"] : List String).getD ((["u", "v", "w"] : List String).length - 1) "" ++
        (["u", "v", "w"] : List String).getD ((["u", "v", "w"] : List String).length - 1) "") ∧
    (nextLevel demoHash ["u", "v", "w"]).length = ((["u", "v", "w"] : List String).length + 1) / 2) :=
  ⟨by decide, by decide,
    odd_level_duplication demoHash "x" "y" "z" ["u", "v", "w"] (by decide) (by decide)⟩

/-- C4: single-leaf identity — for every digest `d`, building from `[d]`
returns `d` itself as the root (no hashing: the equation holds for every
hash function uniformly), and the verifier applied to digest `d`, the empty
proof and root `d` returns `true`. -/
theorem single_leaf_identity (hash : String → String) (d : String) :
    buildMerkleTree hash [d] = some ([d], d) ∧ verifyDigest hash d [] d = true := by
  constructor
  · rw [buildMerkleTree_eq, if_pos (by simp)]
    rfl
  · simp [verifyDigest, verifyFold]

/-- C5 counterexample: a Proof Step whose side tag is `"up"` (neither
`"left"` nor `"right"`) does not make the verifier fail — it returns an
ordinary boolean, and in fact `true`, treating the unknown tag exactly like
`"right"`. -/
theorem verify_unknown_side_returns_boolean :
    verifyEmail demoHash "e" [⟨"s", "up"⟩] "((e)s)" = true ∧
    verifyEmail demoHash "e" [⟨"s", "right"⟩] "((e)s)" = true := by
  decide

/-- C5 amended: the verifier never fails on an unknown side tag; every step
whose position is not `"left"` is processed as if it were `"right"`
(the source branches only on `position === 'left'`), and a boolean is
always returned. -/
theorem verify_nonleft_treated_as_right (hash : String → String)
    (email : String) (proof : List ProofStep) (root : String) :
    verifyEmail hash email proof root =
      verifyEmail hash email
        (proof.map fun s =>
          ⟨s.hash, if s.position = "left" then "left" else "right"⟩) root := by
  unfold verifyEmail verifyDigest
  congr 1
  unfold verifyFold
  generalize hash email = c
  induction proof generalizing c with
  | nil => rfl
  | cons s rest ih =>
    simp only [List.map_cons, List.foldl_cons]
    rw [← ih]
    congr 1
    by_cases hs : s.position = "left"
    · rw [if_pos hs, if_pos hs, if_pos rfl]
    · rw [if_neg hs, if_neg hs, if_neg (by decide : ¬("right" : String) = "left")]

theorem verify_nonleft_treated_as_right_witness :
    verifyEmail demoHash "e" [⟨"s", "up"⟩] "((e)s)" =
      verifyEmail demoHash "e"
        (([⟨"s", "up"⟩] : List ProofStep).map fun s =>
          ⟨s.hash, if s.position = "left" then "left" else "right"⟩) "((e)s)" :=
  verify_nonleft_treated_as_right demoHash "e" [⟨"s", "up"⟩] "((e)s)"

/-- C6: non-membership — on any non-empty leaf sequence, a target digest
absent from the sequence makes the generator return the NotFound signal
(`null`, modelled as `none`), never a proof. -/
theorem generate_not_found (hash : String → String) (email : String) (L : List String)
    (hne : L ≠ []) (habs : hash email ∉ L) :
    generateMerkleProof hash email L = none := by
  unfold generateMerkleProof
  rw [indexOfAux_of_not_mem (hash email) L habs]

theorem generate_not_found_witness :
    (["x"] : List String) ≠ [] ∧ demoHash "z" ∉ (["x"] : List String) ∧
    generateMerkleProof demoHash "z" ["x"] = none :=
  ⟨by decide, by decide, generate_not_found demoHash "z" ["x"] (by decide) (by decide)⟩

/-- C7: proof length bound — for a member of a leaf sequence of length
`n ≥ 1` the generated proof has exactly `⌈log₂ n⌉` steps (`Nat.clog 2 n`),
and is empty when `n = 1`. -/
theorem proof_length_clog (hash : String → String) (email : String) (L : List String)
    (hmem : hash email ∈ L) :
    ∃ p, generateMerkleProof hash email L = some p ∧
      p.length = Nat.clog 2 L.length ∧ (L.length = 1 → p = []) := by
  obtain ⟨i, hi⟩ := indexOfAux_of_mem (hash email) L hmem
  have h1 : 1 ≤ L.length := by
    cases L with
    | nil => simp at hmem
    | cons x xs => simp
  refine ⟨genLoop hash i L, ?_, ?_, ?_⟩
  · unfold generateMerkleProof
    rw [hi]
  · exact genLoop_length hash L.length L le_rfl h1 i
  · intro hlen
    rw [genLoop_eq, if_pos (by omega)]

theorem proof_length_clog_witness :
    demoHash "a" ∈ (["(a)", "q"] : List String) ∧
    ∃ p, generateMerkleProof demoHash "a" ["(a)", "q"] = some p ∧
      p.length = Nat.clog 2 (["(a)", "q"] : List String).length ∧
      ((["(a)", "q"] : List String).length = 1 → p = []) :=
  ⟨by decide, proof_length_clog demoHash "a" ["(a)", "q"] (by decide)⟩

/-- C8: self-pair side convention — when the target sits at the last,
unpaired index of an odd-length level, the recorded step carries the
target's own digest with side `"left"` (the `pairIndex > index` comparison
is false), and replaying that step through the verifier reproduces exactly
the parent the builder computes for the duplicated node. -/
theorem self_pair_side_left (hash : String → String) (level : List String) (index : Nat)
    (hodd : level.length % 2 = 1) (hlen : 1 < level.length)
    (hidx : index = level.length - 1) :
    ∃ rest, genLoop hash index level =
        (⟨level.getD index "", "left"⟩ : ProofStep) :: rest ∧
      verifyFold hash (level.getD index "") [⟨level.getD index "", "left"⟩] =
        (nextLevel hash level).getD (index / 2) "" := by
  subst hidx
  obtain ⟨k, hk⟩ : ∃ k, level.length = 2 * k + 1 := ⟨level.length / 2, by omega⟩
  have hidxk : level.length - 1 = 2 * k := by omega
  rw [hidxk]
  have hp : pairIndexOf (2 * k) level.length = 2 * k := by
    unfold pairIndexOf
    rw [if_pos (by omega : 2 * k % 2 = 0), if_pos (by omega)]
  refine ⟨genLoop hash (2 * k / 2) (nextLevel hash level), ?_, ?_⟩
  · rw [genLoop_eq, if_neg (by omega)]
    congr 1
    unfold genStep
    rw [hp, if_neg (by omega)]
  · have hlast := nextLevel_getD_last hash level k hk
    have e : 2 * k / 2 = k := by omega
    simp only [verifyFold, List.foldl_cons, List.foldl_nil, if_pos trivial]
    rw [e]
    exact hlast.symm

theorem self_pair_side_left_witness :
    (["x", "y", "z"] : List String).length % 2 = 1 ∧
    1 < (["x", "y", "z"] : List String).length ∧
    2 = (["x", "y", "z"] : List String).length - 1 ∧
    ∃ rest, genLoop demoHash 2 ["x", "y", "z"] =
        (⟨(["x", "y", "z"] : List String).getD 2 "", "left"⟩ : ProofStep) :: rest ∧
      verifyFold demoHash ((["x", "y", "z"] : List String).getD 2 "")
          [⟨(["x", "y", "z"] : List String).getD 2 "", "left"⟩] =
        (nextLevel demoHash ["x", "y", "z"]).getD (2 / 2) "" :=
  ⟨by decide, by decide, by decide,
    self_pair_side_left demoHash ["x", "y", "z"] 2 (by decide) (by decide) (by decide)⟩

/-- C9: duplicate-leaf tie-break — when the target digest occurs at two (or
more) positions, the generator builds the proof from the first (lowest)
matching index: the index `k` it uses holds the target, no smaller index
does, and `k` is at most any given matching position. -/
theorem generate_first_match (hash : String → String) (email : String) (L : List String)
    (i j : Nat) (hij : i < j) (hj : j < L.length)
    (hi : L.getD i "" = hash email) (hjv : L.getD j "" = hash email) :
    ∃ k, k ≤ i ∧ L.getD k "" = hash email ∧
      (∀ m, m < k → L.getD m "" ≠ hash email) ∧
      generateMerkleProof hash email L = some (genLoop hash k L) := by
  have hilt : i < L.length := by omega
  have hmem : hash email ∈ L := by
    rw [← hi, List.getD_eq_getElem L "" hilt]
    exact List.getElem_mem hilt
  obtain ⟨k, hk⟩ := indexOfAux_of_mem (hash email) L hmem
  obtain ⟨hklt, hkv, hkmin⟩ := indexOfAux_some (hash email) L k hk
  refine ⟨k, ?_, hkv, hkmin, ?_⟩
  · by_contra hgt
    push_neg at hgt
    exact hkmin i hgt hi
  · unfold generateMerkleProof
    rw [hk]

theorem generate_first_match_witness :
    0 < 1 ∧ 1 < (["(a)", "(a)"] : List String).length ∧
    (["(a)", "(a)"] : List String).getD 0 "" = demoHash "a" ∧
    (["(a)", "(a)"] : List String).getD 1 "" = demoHash "a" ∧
    ∃ k, k ≤ 0 ∧ (["(a)", "(a)"] : List String).getD k "" = demoHash "a" ∧
      (∀ m, m < k → (["(a)", "(a)"] : List String).getD m "" ≠ demoHash "a") ∧
      generateMerkleProof demoHash "a" ["(a)", "(a)"] =
        some (genLoop demoHash k ["(a)", "(a)"]) :=
  ⟨by decide, by decide, by decide, by decide,
    generate_first_match demoHash "a" ["(a)", "(a)"] 0 1
      (by decide) (by decide) (by decide) (by decide)⟩

/-- C10: the `tree` field of the record `buildMerkleTree` returns is always
the one-element base-case level `[root]`: intermediate levels (including
the original leaves, for multi-leaf inputs) are never part of it. -/
theorem build_tree_is_singleton_root (hash : String → String) (l : List String)
    (hne : l ≠ []) :
    ∃ t r, buildMerkleTree hash l = some (t, r) ∧ t = [r] := by
  obtain ⟨r, hr⟩ := buildMerkleTree_some hash l.length l le_rfl
    (by have := List.length_pos.mpr hne; omega)
  exact ⟨[r], r, hr, rfl⟩

theorem build_tree_is_singleton_root_witness :
    (["x", "y"] : List String) ≠ [] ∧
    ∃ t r, buildMerkleTree demoHash ["x", "y"] = some (t, r) ∧ t = [r] :=
  ⟨by decide, build_tree_is_singleton_root demoHash ["x", "y"] (by decide)⟩

end Claims

end MerkleTrees
